import Mathlib

/-!
Verification of the adaptiv-x services against their specification.

The development shallowly embeds the Python sources:
* `services/adaptiv-monitor/src/adaptiv_monitor/health_fusion.py`
  (`HealthFusion.compute`),
* `services/adaptiv-monitor/src/adaptiv_monitor/ml_model.py`
  (`AnomalyDetector`: residual tracker, `_compute_zscore`, `detect`),
* `services/skill-broker/src/skill_broker/policy_engine.py`
  (`PolicyEngine._check_condition`, `PolicyEngine.evaluate`, default rules),
* `services/skill-broker/src/skill_broker/main.py`
  (bounded audit log and the `/audit` query).

Python floats are modelled by exact rationals `ℚ` (the decimal literals of the
source are taken at face value); `math.sqrt` forces the anomaly-score pipeline
into `ℝ`.  Python `int` is modelled by `ℤ`, Python exceptions by `Option`
(`none` = the call raises).  Strings processed by the condition parser are
modelled as `List Char`.
-/

namespace AdaptivX

/-- Python `int(q)` on a real quantity: truncation toward zero. -/
def pyTrunc (q : ℚ) : ℤ := if 0 ≤ q then ⌊q⌋ else -⌊-q⌋

/-- Banker's rounding (round half to even) to an integer, as Python `round`. -/
def roundHalfEven (q : ℚ) : ℤ :=
  if q - ⌊q⌋ < 1/2 then ⌊q⌋
  else if 1/2 < q - ⌊q⌋ then ⌊q⌋ + 1
  else if Even ⌊q⌋ then ⌊q⌋ else ⌊q⌋ + 1

/-- Python `round(q, 3)` (idealised to exact decimal arithmetic). -/
def pyRound3 (q : ℚ) : ℚ := (roundHalfEven (1000 * q) : ℚ) / 1000

/-- Result of health fusion computation (`health_fusion.HealthResult`). -/
structure HealthResult where
  healthIndex : ℤ
  healthConfidence : ℚ
  anomalyScore : ℚ
  physicsResidual : ℚ
  deriving DecidableEq

/-- Weights of `health_fusion.HealthFusion`. -/
structure HealthFusion where
  mlWeight : ℚ
  physicsWeight : ℚ
  deriving DecidableEq

/-- The `__init__` validation: both weights lie in `[0, 1]`. -/
def HealthFusion.validWeights (hf : HealthFusion) : Prop :=
  0 ≤ hf.mlWeight ∧ hf.mlWeight ≤ 1 ∧ 0 ≤ hf.physicsWeight ∧ hf.physicsWeight ≤ 1

/-- `HealthFusion.compute` (health_fusion.py lines 55-84). -/
def HealthFusion.compute (hf : HealthFusion) (anomalyScore physicsResidual : ℚ) :
    HealthResult :=
  let a := min 1 (max 0 anomalyScore)
  let r := min 1 (max 0 physicsResidual)
  let confidence := 1 - min 1 (hf.mlWeight * a + hf.physicsWeight * r)
  { healthIndex := pyTrunc (100 * confidence)
    healthConfidence := pyRound3 confidence
    anomalyScore := pyRound3 a
    physicsResidual := pyRound3 r }

/-- Residual statistics tracker of `AnomalyDetector`: the deque
`_residuals` plus the running aggregates `_sum` and `_sum_sq`. -/
structure Tracker where
  window : List ℚ
  sum : ℚ
  sumSq : ℚ
  deriving DecidableEq

/-- Fresh tracker (`AnomalyDetector.__init__` / `reset`). -/
def Tracker.init : Tracker := ⟨[], 0, 0⟩

/-- `AnomalyDetector._update_residual_stats` (ml_model.py lines 116-124):
when the deque is at `maxlen`, pop the oldest value and subtract it from the
aggregates, then append the new residual and add it.  (For `maxlen = 0` the
Python code would raise on `popleft` from an empty deque; theorems that walk
the tracker assume `0 < maxlen`.) -/
def Tracker.push (maxlen : ℕ) (t : Tracker) (r : ℚ) : Tracker :=
  let t1 :=
    if t.window.length = maxlen then
      match t.window with
      | [] => t
      | old :: rest => ⟨rest, t.sum - old, t.sumSq - old * old⟩
    else t
  ⟨t1.window ++ [r], t1.sum + r, t1.sumSq + r * r⟩

/-- Push a whole list of residuals, oldest first. -/
def Tracker.pushAll (maxlen : ℕ) (t : Tracker) (rs : List ℚ) : Tracker :=
  rs.foldl (Tracker.push maxlen) t

/-- The `mean` reported by `AnomalyDetector.get_statistics`
(ml_model.py lines 175-184; `0` when the window is empty). -/
def Tracker.statsMean (t : Tracker) : ℚ :=
  if t.window.length = 0 then 0 else t.sum / (t.window.length : ℚ)

/-- The `variance` local of `AnomalyDetector.get_statistics` (the reported
`std` is its square root): `max(0, sum_sq/n - mean*mean)`, `0` when empty. -/
def Tracker.statsVariance (t : Tracker) : ℚ :=
  if t.window.length = 0 then 0
  else
    let n : ℚ := (t.window.length : ℚ)
    let mean := t.sum / n
    max 0 (t.sumSq / n - mean * mean)

/-- Mean of a sample, computed directly from the values. -/
def directMean (xs : List ℚ) : ℚ := xs.sum / (xs.length : ℚ)

/-- Population variance of a sample, computed directly from the values. -/
def directVariance (xs : List ℚ) : ℚ :=
  ((xs.map fun x => (x - directMean xs) * (x - directMean xs)).sum) / (xs.length : ℚ)

/-- `ml_model.LinearModelCoefficients` (defaults `0.5`, `0.001`, `0.002`). -/
structure LinearModelCoefficients where
  base : ℚ := 1/2
  k1 : ℚ := 1/1000
  k2 : ℚ := 1/500
  deriving DecidableEq

/-- `ml_model.DetectorConfig` with its default values. -/
structure DetectorConfig where
  thresholdVibRms : ℚ := 3
  thresholdFactor : ℚ := 2
  zscoreThreshold : ℚ := 3
  minSamples : ℕ := 20
  windowSize : ℕ := 200
  coefficients : LinearModelCoefficients := {}
  deriving DecidableEq

/-- The all-defaults detector configuration. -/
def defaultConfig : DetectorConfig := {}

/-- `AnomalyDetector._estimate_expected` (ml_model.py lines 111-114). -/
def estimateExpected (cfg : DetectorConfig) (omega load : ℚ) : ℚ :=
  cfg.coefficients.base + cfg.coefficients.k1 * omega + cfg.coefficients.k2 * load

/-- The `mean` local of `_compute_zscore` (ml_model.py line 131):
`sum / n` from the running aggregates. -/
def aggMean (t : Tracker) : ℚ := t.sum / (t.window.length : ℚ)

/-- The `variance` local of `_compute_zscore` (ml_model.py line 132):
`max(0, sum_sq/n - mean*mean)` from the running aggregates. -/
def aggVariance (t : Tracker) : ℚ :=
  max 0 (t.sumSq / (t.window.length : ℚ) - aggMean t * aggMean t)

/-- `AnomalyDetector._compute_zscore` (ml_model.py lines 126-134), evaluated
on a tracker state: `0` below `max(min_samples, 2)` occupancy, otherwise
`|residual - mean| / std` with `std = sqrt(variance)` if `variance > 1e-9`
else `1e-6`, where `mean`/`variance` come from the running aggregates. -/
noncomputable def computeZscore (cfg : DetectorConfig) (t : Tracker) (residual : ℚ) : ℝ :=
  let n := t.window.length
  if n < max cfg.minSamples 2 then 0
  else
    let mean : ℚ := t.sum / (n : ℚ)
    let variance : ℚ := max 0 (t.sumSq / (n : ℚ) - mean * mean)
    let std : ℝ := if (1e-9 : ℚ) < variance then Real.sqrt (variance : ℝ) else 1e-6
    |(residual : ℝ) - (mean : ℝ)| / std

/-- `AnomalyDetector.detect` (ml_model.py lines 77-109): returns the anomaly
score and the updated tracker state. -/
noncomputable def detect (cfg : DetectorConfig) (t : Tracker) (vibRms omega load : ℚ) :
    ℝ × Tracker :=
  let expectedVib := estimateExpected cfg omega load
  let residual := vibRms - expectedVib
  let t2 := Tracker.push cfg.windowSize t residual
  let zscore := computeZscore cfg t2 residual
  let ratioRaw : ℚ := |residual| / max expectedVib (1/2)
  let zscoreScore : ℝ := min 1 (zscore / max (cfg.zscoreThreshold : ℝ) (1/10))
  let ratioScore : ℚ := min 1 ratioRaw
  let anomalyScore : ℝ := min 1 ((1/2) * (ratioScore : ℝ) + (1/2) * zscoreScore)
  let final : ℝ :=
    if cfg.thresholdVibRms * cfg.thresholdFactor < vibRms then max anomalyScore (4/5)
    else anomalyScore
  (final, t2)

/-- `policy_engine.PolicyAction`. -/
structure PolicyAction where
  path : String
  value : String
  deriving DecidableEq

/-- `policy_engine.PolicyRule`. -/
structure PolicyRule where
  condition : List Char
  actions : List PolicyAction
  priority : ℤ
  deriving DecidableEq

/-- Python `str.lstrip()` on characters. -/
def stripLeft (s : List Char) : List Char := s.dropWhile Char.isWhitespace

/-- Python `str.rstrip()` on characters. -/
def stripRight (s : List Char) : List Char :=
  (s.reverse.dropWhile Char.isWhitespace).reverse

/-- Python `str.strip()` on characters. -/
def pyStrip (s : List Char) : List Char := stripRight (stripLeft s)

/-- Python `str.lower()` on characters (basic-latin case folding). -/
def pyLower (s : List Char) : List Char := s.map Char.toLower

/-- `leadsWith sep s` is true when `sep` is an initial segment of `s`. -/
def leadsWith : List Char → List Char → Bool
  | [], _ => true
  | _ :: _, [] => false
  | a :: as, b :: bs => a == b && leadsWith as bs

/-- First occurrence of `sep` in `s`: `some (before, after)` splits `s` as
`before ++ sep ++ after` at the leftmost occurrence, `none` if absent. -/
def findSplit (sep : List Char) : List Char → Option (List Char × List Char)
  | [] => if leadsWith sep [] then some ([], []) else none
  | c :: rest =>
    if leadsWith sep (c :: rest) then some ([], (c :: rest).drop sep.length)
    else (findSplit sep rest).map fun pr => (c :: pr.1, pr.2)

/-- Python `sep in s`. -/
def containsSeq (sep s : List Char) : Bool := (findSplit sep s).isSome

/-- Python `s.split(sep)[1]`: the segment between the first occurrence of
`sep` and the next (non-overlapping) occurrence or the end.  Callers guard on
`sep in s`, so the `none` fallback is unreachable there. -/
def pySplitGet1 (sep s : List Char) : List Char :=
  match findSplit sep s with
  | none => []
  | some (_, post) =>
    match findSplit sep post with
    | none => post
    | some (pre2, _) => pre2

/-- Decimal value of a digit string. -/
def digitsVal (ds : List Char) : ℕ := ds.foldl (fun n c => 10 * n + (c.toNat - 48)) 0

/-- Python `int(s)` on a string: optional surrounding whitespace, optional
sign, then a non-empty digit string; `none` models the raised `ValueError`.
(Python's underscore digit grouping is not modelled.) -/
def pyInt (s : List Char) : Option ℤ :=
  match pyStrip s with
  | '+' :: ds => if ds.isEmpty || !ds.all Char.isDigit then none else some (digitsVal ds : ℤ)
  | '-' :: ds => if ds.isEmpty || !ds.all Char.isDigit then none else some (-(digitsVal ds : ℤ))
  | ds => if ds.isEmpty || !ds.all Char.isDigit then none else some (digitsVal ds : ℤ)

/-- The operator dispatch of `PolicyEngine._check_condition`
(policy_engine.py lines 189-206), applied to the already
stripped-and-lowercased condition: `"<="`, `">="`, `"<"`, `">"`, `"=="` are
tried in that order; `int(...)` failure (`none`) models the uncaught
`ValueError`; no operator at all yields `False` (logged, non-matching). -/
def condEval (c : List Char) (health : ℤ) : Option Bool :=
  if containsSeq ['<', '='] c then
    (pyInt (pyStrip (pySplitGet1 ['<', '='] c))).map fun t => decide (health ≤ t)
  else if containsSeq ['>', '='] c then
    (pyInt (pyStrip (pySplitGet1 ['>', '='] c))).map fun t => decide (t ≤ health)
  else if containsSeq ['<'] c then
    (pyInt (pyStrip (pySplitGet1 ['<'] c))).map fun t => decide (health < t)
  else if containsSeq ['>'] c then
    (pyInt (pyStrip (pySplitGet1 ['>'] c))).map fun t => decide (t < health)
  else if containsSeq ['=', '='] c then
    (pyInt (pyStrip (pySplitGet1 ['=', '='] c))).map fun t => decide (health = t)
  else some false

/-- `PolicyEngine._check_condition` (policy_engine.py lines 180-206):
`condition.strip().lower()` followed by the operator dispatch.  `none` models
an uncaught exception escaping the method. -/
def checkCondition (condition : List Char) (health : ℤ) : Option Bool :=
  condEval (pyLower (pyStrip condition)) health

/-- `PolicyEngine.evaluate` (policy_engine.py lines 167-178): actions of the
first rule (in list order) whose condition matches, `[]` when none does;
an exception in `_check_condition` propagates (`none`). -/
def evaluate : List PolicyRule → ℤ → Option (List PolicyAction)
  | [], _ => some []
  | r :: rs, health =>
    match checkCondition r.condition health with
    | none => none
    | some true => some r.actions
    | some false => evaluate rs health

/-- `CAPABILITY_ELEMENT_PATHS["assurance_state"]`. -/
def assuranceStatePath : String := "Capabilities/ProcessCapability:Milling/AssuranceState"

/-- `CAPABILITY_ELEMENT_PATHS["surface_finish"]`. -/
def surfaceFinishPath : String := "Capabilities/ProcessCapability:Milling/SurfaceFinishGrade"

/-- `CAPABILITY_ELEMENT_PATHS["tolerance_class"]`. -/
def toleranceClassPath : String := "Capabilities/ProcessCapability:Milling/ToleranceClass"

/-- `CAPABILITY_ELEMENT_PATHS["energy_cost"]`. -/
def energyCostPath : String := "Capabilities/ProcessCapability:Milling/EnergyCostPerPart_kWh"

/-- The severe-degradation action set of the default rule table. -/
def notAvailableActions : List PolicyAction :=
  [⟨assuranceStatePath, "notAvailable"⟩, ⟨surfaceFinishPath, "C"⟩,
   ⟨toleranceClassPath, "±0.05mm"⟩, ⟨energyCostPath, "1.25"⟩]

/-- The moderate-degradation action set of the default rule table. -/
def offeredActions : List PolicyAction :=
  [⟨assuranceStatePath, "offered"⟩, ⟨surfaceFinishPath, "B"⟩,
   ⟨energyCostPath, "1.0"⟩]

/-- The healthy-state action set of the default rule table. -/
def assuredActions : List PolicyAction :=
  [⟨assuranceStatePath, "assured"⟩, ⟨surfaceFinishPath, "A"⟩,
   ⟨toleranceClassPath, "±0.02mm"⟩, ⟨energyCostPath, "0.85"⟩]

/-- `PolicyEngine._load_default_rules` (policy_engine.py lines 96-165). -/
def defaultRules : List PolicyRule :=
  [⟨"health < 80".toList, notAvailableActions, 10⟩,
   ⟨"health < 90".toList, offeredActions, 5⟩,
   ⟨"health >= 90".toList, assuredActions, 1⟩]

/-- `main.MAX_AUDIT_LOG`. -/
def MAX_AUDIT_LOG : ℕ := 1000

/-- One audit append (main.py lines 189-191 and 270-272):
`audit_log.append(entry)` followed by `audit_log.pop(0)` when the length
exceeds `MAX_AUDIT_LOG`. -/
def recordAppend {α : Type} (log : List α) (e : α) : List α :=
  let l := log ++ [e]
  if MAX_AUDIT_LOG < l.length then l.tail else l

/-- `main.AuditLogEntry`. -/
structure AuditLogEntry where
  timestamp : ℤ
  assetId : String
  action : String
  path : String
  oldValue : Option String
  newValue : String
  reason : String
  deriving DecidableEq

/-- Python `l[s:]` for an integer (possibly negative) start index. -/
def pySliceFrom {α : Type} (l : List α) (s : ℤ) : List α :=
  if s < 0 then l.drop (Int.toNat ((l.length : ℤ) + s)) else l.drop (Int.toNat s)

/-- The asset filter of `get_audit_log` (main.py lines 293-295): Python's
`if asset_id:` skips the filter for `None` and for the empty string. -/
def auditFiltered (log : List AuditLogEntry) (assetId : Option String) :
    List AuditLogEntry :=
  match assetId with
  | some a => if a.isEmpty then log else log.filter fun e => decide (e.assetId = a)
  | none => log

/-- `get_audit_log` (main.py lines 288-296): optional asset filter, then
`entries[-limit:]`. -/
def getAuditLog (log : List AuditLogEntry) (assetId : Option String) (limit : ℤ) :
    List AuditLogEntry :=
  pySliceFrom (auditFiltered log assetId) (-limit)

/-- Membership in the unit interval, the documented input range of
`HealthFusion.compute`. -/
def inUnit (x : ℚ) : Prop := 0 ≤ x ∧ x ≤ 1

/-- The tracker invariant of the specification: the running aggregates agree
with the window contents and the window respects its capacity. -/
def TrackerInv (maxlen : ℕ) (t : Tracker) : Prop :=
  t.sum = t.window.sum ∧
  t.sumSq = (t.window.map fun x => x * x).sum ∧
  t.window.length ≤ maxlen

/-- C1: with weights `0.6`/`0.4`, `compute(0.8, 0.0)` has health index 52 and
`compute(0.0, 0.8)` has health index 68, exactly as given by the formula
`floor(100 * (1 - min(1, w_ml*anomaly + w_physics*residual)))`. -/
theorem C1_fusion_values :
    (HealthFusion.compute ⟨3/5, 2/5⟩ (4/5) 0).healthIndex = 52 ∧
    (HealthFusion.compute ⟨3/5, 2/5⟩ 0 (4/5)).healthIndex = 68 ∧
    (HealthFusion.compute ⟨3/5, 2/5⟩ (4/5) 0).healthIndex =
      ⌊(100 : ℚ) * (1 - min 1 ((3/5) * (4/5) + (2/5) * 0))⌋ ∧
    (HealthFusion.compute ⟨3/5, 2/5⟩ 0 (4/5)).healthIndex =
      ⌊(100 : ℚ) * (1 - min 1 ((3/5) * 0 + (2/5) * (4/5)))⌋ := by
  refine ⟨?_, ?_, ?_, ?_⟩ <;>
    norm_num [HealthFusion.compute, pyTrunc, min_def, max_def]

/-- On in-range inputs the clamps are the identity and the health index is
the floor of `100 * confidence` (the truncation is a floor since the
confidence is nonnegative). -/
theorem compute_healthIndex_eq (hf : HealthFusion) (a r : ℚ)
    (ha : inUnit a) (hr : inUnit r) :
    (hf.compute a r).healthIndex =
      ⌊(100 : ℚ) * (1 - min 1 (hf.mlWeight * a + hf.physicsWeight * r))⌋ := by
  have hA : min 1 (max 0 a) = a := by rw [max_eq_right ha.1, min_eq_right ha.2]
  have hR : min 1 (max 0 r) = r := by rw [max_eq_right hr.1, min_eq_right hr.2]
  have hconf : (0 : ℚ) ≤ 100 * (1 - min 1 (hf.mlWeight * a + hf.physicsWeight * r)) := by
    have := min_le_left (1 : ℚ) (hf.mlWeight * a + hf.physicsWeight * r)
    linarith
  show pyTrunc _ = _
  rw [hA, hR, pyTrunc, if_pos hconf]

/-- C5: for any valid weight pair and inputs in `[0,1]`, the health index of
`HealthFusion.compute` never increases when either input increases. -/
theorem C5_fusion_monotone (hf : HealthFusion) (a a' r r' : ℚ)
    (hw : hf.validWeights) (ha : inUnit a) (ha' : inUnit a')
    (hr : inUnit r) (hr' : inUnit r') (haa : a ≤ a') (hrr : r ≤ r') :
    (hf.compute a' r).healthIndex ≤ (hf.compute a r).healthIndex ∧
    (hf.compute a r').healthIndex ≤ (hf.compute a r).healthIndex := by
  obtain ⟨hml0, -, hph0, -⟩ := hw
  constructor
  · rw [compute_healthIndex_eq hf a r ha hr, compute_healthIndex_eq hf a' r ha' hr]
    apply Int.floor_le_floor
    have h1 : hf.mlWeight * a ≤ hf.mlWeight * a' := mul_le_mul_of_nonneg_left haa hml0
    have h2 : min 1 (hf.mlWeight * a + hf.physicsWeight * r) ≤
        min 1 (hf.mlWeight * a' + hf.physicsWeight * r) :=
      min_le_min le_rfl (by linarith)
    linarith
  · rw [compute_healthIndex_eq hf a r ha hr, compute_healthIndex_eq hf a r' ha hr']
    apply Int.floor_le_floor
    have h1 : hf.physicsWeight * r ≤ hf.physicsWeight * r' := mul_le_mul_of_nonneg_left hrr hph0
    have h2 : min 1 (hf.mlWeight * a + hf.physicsWeight * r) ≤
        min 1 (hf.mlWeight * a + hf.physicsWeight * r') :=
      min_le_min le_rfl (by linarith)
    linarith

/-- C5 witness: the monotonicity theorem applied at a concrete point. -/
theorem C5_fusion_monotone_witness :
    HealthFusion.validWeights ⟨1, 1⟩ ∧ inUnit 0 ∧ inUnit 1 ∧
    (0 : ℚ) ≤ 1 ∧
    (((HealthFusion.compute ⟨1, 1⟩ 1 0).healthIndex ≤
        (HealthFusion.compute ⟨1, 1⟩ 0 0).healthIndex) ∧
      ((HealthFusion.compute ⟨1, 1⟩ 0 1).healthIndex ≤
        (HealthFusion.compute ⟨1, 1⟩ 0 0).healthIndex)) :=
  ⟨⟨by decide, by decide, by decide, by decide⟩, ⟨by decide, by decide⟩,
    ⟨by decide, by decide⟩, by decide,
    C5_fusion_monotone ⟨1, 1⟩ 0 1 0 1
      ⟨by decide, by decide, by decide, by decide⟩ ⟨by decide, by decide⟩
      ⟨by decide, by decide⟩ ⟨by decide, by decide⟩ ⟨by decide, by decide⟩
      (by decide) (by decide)⟩

/-- Pushing below capacity appends and accumulates. -/
theorem Tracker.push_of_ne (maxlen : ℕ) (w : List ℚ) (s q r : ℚ)
    (h : w.length ≠ maxlen) :
    Tracker.push maxlen ⟨w, s, q⟩ r = ⟨w ++ [r], s + r, q + r * r⟩ := by
  simp [Tracker.push, h]

/-- Pushing at capacity evicts the oldest value first. -/
theorem Tracker.push_of_eq (maxlen : ℕ) (old : ℚ) (rest : List ℚ) (s q r : ℚ)
    (h : rest.length + 1 = maxlen) :
    Tracker.push maxlen ⟨old :: rest, s, q⟩ r =
      ⟨rest ++ [r], s - old + r, q - old * old + r * r⟩ := by
  simp [Tracker.push, h]

/-- One push preserves the tracker invariant. -/
theorem Tracker.push_inv (maxlen : ℕ) (hm : 0 < maxlen) (t : Tracker)
    (ht : TrackerInv maxlen t) (r : ℚ) :
    TrackerInv maxlen (Tracker.push maxlen t r) := by
  obtain ⟨w, s, q⟩ := t
  obtain ⟨hs, hq, hl⟩ := ht
  simp only at hs hq hl
  by_cases h : w.length = maxlen
  · cases w with
    | nil => simp at h; omega
    | cons old rest =>
      simp only [List.length_cons] at h
      rw [Tracker.push_of_eq maxlen old rest s q r h]
      simp only [List.sum_cons, List.map_cons, List.length_cons] at hs hq
      refine ⟨?_, ?_, ?_⟩
      · show s - old + r = (rest ++ [r]).sum
        simp only [List.sum_append, List.sum_cons, List.sum_nil]
        linarith
      · show q - old * old + r * r = ((rest ++ [r]).map fun x => x * x).sum
        simp only [List.map_append, List.sum_append, List.map_cons, List.sum_cons,
          List.map_nil, List.sum_nil]
        linarith
      · show (rest ++ [r]).length ≤ maxlen
        simp only [List.length_append, List.length_cons, List.length_nil]
        omega
  · rw [Tracker.push_of_ne maxlen w s q r h]
    refine ⟨by simp [hs], by simp [hq], by simp; omega⟩

/-- Any push sequence preserves the tracker invariant. -/
theorem Tracker.pushAll_inv (maxlen : ℕ) (hm : 0 < maxlen) (l : List ℚ) :
    ∀ t : Tracker, TrackerInv maxlen t → TrackerInv maxlen (t.pushAll maxlen l) := by
  induction l with
  | nil => exact fun t ht => ht
  | cons r l ih =>
    intro t ht
    exact ih (t.push maxlen r) (Tracker.push_inv maxlen hm t ht r)

/-- The fresh tracker satisfies the invariant. -/
theorem Tracker.init_inv (maxlen : ℕ) : TrackerInv maxlen Tracker.init :=
  ⟨rfl, rfl, Nat.zero_le _⟩

/-- The window after a push sequence is the suffix of the input that fits. -/
theorem Tracker.pushAll_window (maxlen : ℕ) (hm : 0 < maxlen) (l : List ℚ) :
    ∀ t : Tracker, t.window.length ≤ maxlen →
      (t.pushAll maxlen l).window =
        (t.window ++ l).drop (t.window.length + l.length - maxlen) := by
  induction l with
  | nil =>
    intro t hle
    simp [Tracker.pushAll, Nat.sub_eq_zero_of_le hle]
  | cons r l ih =>
    rintro ⟨w, s, q⟩ hle
    simp only at hle
    show ((Tracker.push maxlen ⟨w, s, q⟩ r).pushAll maxlen l).window = _
    by_cases h : w.length = maxlen
    · cases w with
      | nil => simp at h; omega
      | cons old rest =>
        simp only [List.length_cons] at h
        rw [Tracker.push_of_eq maxlen old rest s q r h]
        rw [ih ⟨rest ++ [r], s - old + r, q - old * old + r * r⟩ (by simp; omega)]
        simp only [List.length_cons, List.length_append, List.length_nil]
        have h1 : rest.length + (1 + 0) + l.length - maxlen = l.length := by omega
        have h2 : rest.length + 1 + (l.length + 1) - maxlen = l.length + 1 := by omega
        rw [h1, h2]
        rw [List.append_assoc, List.singleton_append, List.cons_append,
          List.drop_succ_cons]
    · rw [Tracker.push_of_ne maxlen w s q r h]
      rw [ih ⟨w ++ [r], s + r, q + r * r⟩ (by simp; omega)]
      simp only [List.length_append, List.length_cons, List.length_nil]
      rw [List.append_assoc, List.singleton_append]
      congr 1
      omega

/-- Expansion of a shifted sum of squares. -/
theorem sum_shift_sq (xs : List ℚ) (c : ℚ) :
    (xs.map fun x => (x - c) * (x - c)).sum =
      (xs.map fun x => x * x).sum - 2 * c * xs.sum + (xs.length : ℚ) * (c * c) := by
  induction xs with
  | nil => simp
  | cons x xs ih =>
    simp only [List.map_cons, List.sum_cons, List.length_cons, ih]
    push_cast
    ring

/-- The direct population variance via the sum-of-squares identity. -/
theorem directVariance_eq (xs : List ℚ) (h : xs ≠ []) :
    directVariance xs =
      (xs.map fun x => x * x).sum / (xs.length : ℚ) - directMean xs * directMean xs := by
  have hn : (xs.length : ℚ) ≠ 0 := by
    have := List.length_pos.mpr h
    positivity
  rw [directVariance, sum_shift_sq, directMean]
  field_simp
  ring

/-- The direct population variance is nonnegative. -/
theorem directVariance_nonneg (xs : List ℚ) : 0 ≤ directVariance xs := by
  apply div_nonneg
  · apply List.sum_nonneg
    intro x hx
    obtain ⟨y, -, rfl⟩ := List.mem_map.mp hx
    exact mul_self_nonneg _
  · exact Nat.cast_nonneg _

/-- C6: after every sequence of pushes the tracker invariant
`sum = Σ window`, `sum_sq = Σ window²`, `len(window) ≤ N` holds, and after
pushing `N + k` residuals the mean and variance reported from the aggregates
equal those computed directly from the last `N` pushed values. -/
theorem C6_tracker_rolling_stats (N k : ℕ) (l : List ℚ) (hN : 0 < N) :
    TrackerInv N (Tracker.init.pushAll N l) ∧
    (l.length = N + k →
      (Tracker.init.pushAll N l).statsMean = directMean (l.drop k) ∧
      (Tracker.init.pushAll N l).statsVariance = directVariance (l.drop k)) := by
  have hinv := Tracker.pushAll_inv N hN l Tracker.init (Tracker.init_inv N)
  refine ⟨hinv, fun hlen => ?_⟩
  have hwin : (Tracker.init.pushAll N l).window = l.drop k := by
    rw [Tracker.pushAll_window N hN l Tracker.init (by simp [Tracker.init])]
    simp [Tracker.init, hlen]
  obtain ⟨hs, hq, -⟩ := hinv
  have hlendrop : (l.drop k).length = N := by
    rw [List.length_drop, hlen]; omega
  have hne : l.drop k ≠ [] := by
    intro hnil
    rw [hnil] at hlendrop
    simp at hlendrop
    omega
  have hn0 : (Tracker.init.pushAll N l).window.length ≠ 0 := by
    rw [hwin, hlendrop]; omega
  have hnQ : ((Tracker.init.pushAll N l).window.length : ℚ) ≠ 0 := by
    exact_mod_cast hn0
  constructor
  · rw [Tracker.statsMean, if_neg hn0, hs, hwin, directMean]
  · rw [Tracker.statsVariance, if_neg hn0]
    show max 0 _ = _
    rw [hq, hs, hwin]
    rw [show (l.drop k).sum / ((l.drop k).length : ℚ) = directMean (l.drop k) from rfl]
    rw [← directVariance_eq (l.drop k) hne]
    exact max_eq_right (directVariance_nonneg _)

/-- C6 witness: the invariant and rolling statistics at a concrete run. -/
theorem C6_tracker_rolling_stats_witness :
    0 < 2 ∧
    (TrackerInv 2 (Tracker.init.pushAll 2 [1, 2, 3]) ∧
      (([1, 2, 3] : List ℚ).length = 2 + 1 →
        (Tracker.init.pushAll 2 [1, 2, 3]).statsMean = directMean ([1, 2, 3].drop 1) ∧
        (Tracker.init.pushAll 2 [1, 2, 3]).statsVariance =
          directVariance ([1, 2, 3].drop 1))) :=
  ⟨by decide, C6_tracker_rolling_stats 2 1 [1, 2, 3] (by decide)⟩

/-- C3 (amended): after the push of a detect call, at occupancy at least
`max(min_samples, 2)` the z-score is `|residual - mean| / std` with `std =
sqrt(variance)` when `variance > 1e-9` and `std = 1e-6` otherwise (mean and
variance from the running aggregates); below that occupancy it is `0`. -/
theorem C3_zscore_amended (cfg : DetectorConfig) (t t' : Tracker) (r : ℚ)
    (ht : t' = Tracker.push cfg.windowSize t r) :
    (max cfg.minSamples 2 ≤ t'.window.length →
      computeZscore cfg t' r =
        |(r : ℝ) - ((aggMean t' : ℚ) : ℝ)| /
          (if (1e-9 : ℚ) < aggVariance t' then Real.sqrt ((aggVariance t' : ℚ) : ℝ)
           else 1e-6)) ∧
    (t'.window.length < max cfg.minSamples 2 → computeZscore cfg t' r = 0) := by
  subst ht
  constructor
  · intro h
    simp only [computeZscore]
    rw [if_neg (not_lt.mpr h)]
    rfl
  · intro h
    simp only [computeZscore]
    rw [if_pos h]

/-- C3 witness: the amended z-score theorem at a concrete detector state. -/
theorem C3_zscore_amended_witness :
    ((⟨[0, 7], 7, 49⟩ : Tracker) =
      Tracker.push ({ minSamples := 2 } : DetectorConfig).windowSize
        (Tracker.push 200 Tracker.init 0) 7) ∧
    ((max ({ minSamples := 2 } : DetectorConfig).minSamples 2 ≤
        (⟨[0, 7], 7, 49⟩ : Tracker).window.length →
      computeZscore { minSamples := 2 } ⟨[0, 7], 7, 49⟩ 7 =
        |((7 : ℚ) : ℝ) - ((aggMean ⟨[0, 7], 7, 49⟩ : ℚ) : ℝ)| /
          (if (1e-9 : ℚ) < aggVariance ⟨[0, 7], 7, 49⟩ then
            Real.sqrt ((aggVariance ⟨[0, 7], 7, 49⟩ : ℚ) : ℝ)
           else 1e-6)) ∧
      ((⟨[0, 7], 7, 49⟩ : Tracker).window.length <
          max ({ minSamples := 2 } : DetectorConfig).minSamples 2 →
        computeZscore { minSamples := 2 } ⟨[0, 7], 7, 49⟩ 7 = 0)) :=
  ⟨by with_unfolding_all rfl,
    C3_zscore_amended { minSamples := 2 } (Tracker.push 200 Tracker.init 0)
      ⟨[0, 7], 7, 49⟩ 7 (by with_unfolding_all rfl)⟩

/-- C3 counterexample: at the tracker state reached by residual pushes `0`
and `2e-5` (`min_samples = 2`), the variance is `1e-10`, the code divides by
`1e-6` and yields z-score `10`, while the claimed formula
`|residual - mean| / max(sqrt(variance), 1e-6)` yields `1`. -/
theorem C3_zscore_claim_counterexample :
    Tracker.push 200 (Tracker.push 200 Tracker.init 0) (1/50000) =
      (⟨[0, 1/50000], 1/50000, 1/2500000000⟩ : Tracker) ∧
    aggMean ⟨[0, 1/50000], 1/50000, 1/2500000000⟩ = 1/100000 ∧
    aggVariance ⟨[0, 1/50000], 1/50000, 1/2500000000⟩ = 1/10000000000 ∧
    computeZscore { minSamples := 2 } ⟨[0, 1/50000], 1/50000, 1/2500000000⟩
      (1/50000) = 10 ∧
    |((1/50000 : ℚ) : ℝ) - ((1/100000 : ℚ) : ℝ)| /
        max (Real.sqrt ((1/10000000000 : ℚ) : ℝ)) 1e-6 = 1 ∧
    computeZscore { minSamples := 2 } ⟨[0, 1/50000], 1/50000, 1/2500000000⟩
        (1/50000) ≠
      |((1/50000 : ℚ) : ℝ) -
          ((aggMean ⟨[0, 1/50000], 1/50000, 1/2500000000⟩ : ℚ) : ℝ)| /
        max (Real.sqrt
          ((aggVariance ⟨[0, 1/50000], 1/50000, 1/2500000000⟩ : ℚ) : ℝ)) 1e-6 := by
  have hmean : aggMean ⟨[0, 1/50000], 1/50000, 1/2500000000⟩ = 1/100000 := by
    norm_num [aggMean]
  have hvar : aggVariance ⟨[0, 1/50000], 1/50000, 1/2500000000⟩ = 1/10000000000 := by
    rw [aggVariance, hmean]
    norm_num
  have hsqrt : Real.sqrt ((1/10000000000 : ℚ) : ℝ) = 1/100000 := by
    rw [show (((1/10000000000 : ℚ)) : ℝ) = (1/100000 : ℝ) ^ 2 by norm_num]
    exact Real.sqrt_sq (by norm_num)
  have hmax : max (Real.sqrt ((1/10000000000 : ℚ) : ℝ)) (1e-6 : ℝ) = 1/100000 := by
    rw [hsqrt]
    exact max_eq_left (by norm_num)
  have hcode : computeZscore { minSamples := 2 }
      ⟨[0, 1/50000], 1/50000, 1/2500000000⟩ (1/50000) = 10 := by
    simp only [computeZscore]
    norm_num [abs_of_nonneg]
  have hclaim : |((1/50000 : ℚ) : ℝ) - ((1/100000 : ℚ) : ℝ)| /
      max (Real.sqrt ((1/10000000000 : ℚ) : ℝ)) 1e-6 = 1 := by
    rw [hmax]
    norm_num [abs_of_nonneg]
  refine ⟨?_, hmean, hvar, hcode, hclaim, ?_⟩
  · norm_num [Tracker.push, Tracker.init]
  · rw [hmean, hvar, hcode, hclaim]
    norm_num

/-- C7: whenever `vib_rms` exceeds `threshold_vib_rms * threshold_factor`,
the anomaly score returned by `detect` is at least `0.8` and at most `1`,
regardless of the tracker state. -/
theorem C7_hard_override (cfg : DetectorConfig) (t : Tracker)
    (vibRms omega load : ℚ)
    (h : cfg.thresholdVibRms * cfg.thresholdFactor < vibRms) :
    (4/5 : ℝ) ≤ (detect cfg t vibRms omega load).1 ∧
    (detect cfg t vibRms omega load).1 ≤ 1 := by
  constructor
  · simp only [detect]
    rw [if_pos h]
    exact le_max_right _ _
  · simp only [detect]
    rw [if_pos h]
    exact max_le (min_le_left _ _) (by norm_num)

/-- C7 witness: the override bound at a concrete call. -/
theorem C7_hard_override_witness :
    defaultConfig.thresholdVibRms * defaultConfig.thresholdFactor < 7 ∧
    ((4/5 : ℝ) ≤ (detect defaultConfig Tracker.init 7 100 500).1 ∧
      (detect defaultConfig Tracker.init 7 100 500).1 ≤ 1) :=
  ⟨of_decide_eq_true (by with_unfolding_all rfl),
    C7_hard_override defaultConfig Tracker.init 7 100 500
      (of_decide_eq_true (by with_unfolding_all rfl))⟩

/-- C2: the parser raises on a condition with an operator but a non-integer
threshold; the exception escapes `evaluate` (the spec promises this can
never happen). -/
theorem C2_unparseable_condition_raises :
    checkCondition "health < abc".toList 50 = none ∧
    evaluate [⟨"health < abc".toList, [], 0⟩] 50 = none := by
  constructor <;> rfl

/-- When no rule matches, `evaluate` returns the empty action list. -/
theorem evaluate_all_false (rules : List PolicyRule) (health : ℤ)
    (hnone : ∀ r ∈ rules, checkCondition r.condition health = some false) :
    evaluate rules health = some [] := by
  induction rules with
  | nil => rfl
  | cons r rs ih =>
    have hr := hnone r (List.mem_cons_self r rs)
    show evaluate (r :: rs) health = some []
    simp only [evaluate, hr]
    exact ih fun r' hr' => hnone r' (List.mem_cons_of_mem r hr')

/-- C4: under the default rule table, `evaluate 95`, `evaluate 85` and
`evaluate 70` return the assured, offered and notAvailable action sets; for
every health index the returned list is that of a matching rule whose
priority dominates all matching rules; with no matching rule the result is
the empty list. -/
theorem C4_default_policy (rules : List PolicyRule) (health : ℤ)
    (hnone : ∀ r ∈ rules, checkCondition r.condition health = some false) :
    evaluate defaultRules 95 = some assuredActions ∧
    evaluate defaultRules 85 = some offeredActions ∧
    evaluate defaultRules 70 = some notAvailableActions ∧
    (∀ h : ℤ, ∃ r ∈ defaultRules,
      checkCondition r.condition h = some true ∧
      evaluate defaultRules h = some r.actions ∧
      ∀ r' ∈ defaultRules, checkCondition r'.condition h = some true →
        r'.priority ≤ r.priority) ∧
    evaluate rules health = some [] := by
  have c1 : ∀ h : ℤ, checkCondition "health < 80".toList h = some (decide (h < 80)) :=
    fun _ => rfl
  have c2 : ∀ h : ℤ, checkCondition "health < 90".toList h = some (decide (h < 90)) :=
    fun _ => rfl
  have c3 : ∀ h : ℤ,
      checkCondition "health >= 90".toList h = some (decide ((90 : ℤ) ≤ h)) :=
    fun _ => rfl
  refine ⟨by decide, by decide, by decide, ?_, evaluate_all_false rules health hnone⟩
  intro h
  rcases lt_or_le h 80 with h80 | h80
  · refine ⟨⟨"health < 80".toList, notAvailableActions, 10⟩, by simp [defaultRules],
      ?_, ?_, ?_⟩
    · rw [c1 h]; simp [h80]
    · show evaluate defaultRules h = some notAvailableActions
      simp only [defaultRules, evaluate]
      rw [c1 h, decide_eq_true h80]
    · intro r' hr' hchk
      simp only [defaultRules, List.mem_cons, List.not_mem_nil, or_false] at hr'
      rcases hr' with rfl | rfl | rfl <;> norm_num
  · rcases lt_or_le h 90 with h90 | h90
    · refine ⟨⟨"health < 90".toList, offeredActions, 5⟩, by simp [defaultRules],
        ?_, ?_, ?_⟩
      · rw [c2 h]; simp [h90]
      · show evaluate defaultRules h = some offeredActions
        simp only [defaultRules, evaluate]
        rw [c1 h, decide_eq_false (not_lt.2 h80), c2 h, decide_eq_true h90]
      · intro r' hr' hchk
        simp only [defaultRules, List.mem_cons, List.not_mem_nil, or_false] at hr'
        rcases hr' with rfl | rfl | rfl
        · rw [c1 h] at hchk; simp at hchk; omega
        · norm_num
        · norm_num
    · refine ⟨⟨"health >= 90".toList, assuredActions, 1⟩, by simp [defaultRules],
        ?_, ?_, ?_⟩
      · rw [c3 h]; simp [h90]
      · show evaluate defaultRules h = some assuredActions
        simp only [defaultRules, evaluate]
        rw [c1 h, decide_eq_false (not_lt.2 h80), c2 h,
          decide_eq_false (not_lt.2 h90), c3 h, decide_eq_true h90]
      · intro r' hr' hchk
        simp only [defaultRules, List.mem_cons, List.not_mem_nil, or_false] at hr'
        rcases hr' with rfl | rfl | rfl
        · rw [c1 h] at hchk; simp at hchk; omega
        · rw [c2 h] at hchk; simp at hchk; omega
        · norm_num

/-- C4 witness: the policy theorem at concrete inputs (the no-match branch
instantiated with the empty rule list). -/
theorem C4_default_policy_witness :
    (∀ r ∈ ([] : List PolicyRule), checkCondition r.condition 0 = some false) ∧
    (evaluate defaultRules 95 = some assuredActions ∧
      evaluate defaultRules 85 = some offeredActions ∧
      evaluate defaultRules 70 = some notAvailableActions ∧
      (∀ h : ℤ, ∃ r ∈ defaultRules,
        checkCondition r.condition h = some true ∧
        evaluate defaultRules h = some r.actions ∧
        ∀ r' ∈ defaultRules, checkCondition r'.condition h = some true →
          r'.priority ≤ r.priority) ∧
      evaluate [] 0 = some []) :=
  ⟨by simp, C4_default_policy [] 0 (by simp)⟩

/-- One audit append keeps the log within capacity. -/
theorem recordAppend_length_le {α : Type} (acc : List α) (e : α)
    (h : acc.length ≤ MAX_AUDIT_LOG) :
    (recordAppend acc e).length ≤ MAX_AUDIT_LOG := by
  simp only [recordAppend]
  split
  · simp only [List.length_tail, List.length_append, List.length_cons,
      List.length_nil]
    omega
  · next hc =>
    simp only [List.length_append, List.length_cons, List.length_nil, not_lt] at hc
    simp only [List.length_append, List.length_cons, List.length_nil]
    omega

/-- Any append sequence keeps the log within capacity. -/
theorem foldl_recordAppend_length {α : Type} (l : List α) :
    ∀ acc : List α, acc.length ≤ MAX_AUDIT_LOG →
      (l.foldl recordAppend acc).length ≤ MAX_AUDIT_LOG := by
  induction l with
  | nil => exact fun acc h => h
  | cons e l ih =>
    intro acc h
    exact ih (recordAppend acc e) (recordAppend_length_le acc e h)

/-- Below capacity, appends are plain appends. -/
theorem foldl_recordAppend_of_le {α : Type} (l : List α) :
    ∀ acc : List α, acc.length + l.length ≤ MAX_AUDIT_LOG →
      l.foldl recordAppend acc = acc ++ l := by
  induction l with
  | nil => intro acc _; simp
  | cons e l ih =>
    intro acc h
    simp only [List.length_cons] at h
    show l.foldl recordAppend (recordAppend acc e) = _
    have he : recordAppend acc e = acc ++ [e] := by
      simp only [recordAppend]
      rw [if_neg]
      simp only [List.length_append, List.length_cons, List.length_nil, not_lt]
      omega
    rw [he, ih (acc ++ [e]) (by simp; omega)]
    simp

/-- C8: filling the audit log with `C+1` distinct entries leaves exactly the
last `C` of them, oldest entry gone, newest last; and the length never
exceeds `C` after any append sequence. -/
theorem C8_audit_ring_buffer (l : List ℕ) (hlen : l.length = MAX_AUDIT_LOG + 1)
    (hnd : l.Nodup) :
    List.foldl recordAppend ([] : List ℕ) l = l.tail ∧
    (∀ x, l.head? = some x → x ∉ List.foldl recordAppend ([] : List ℕ) l) ∧
    (List.foldl recordAppend ([] : List ℕ) l).length = MAX_AUDIT_LOG ∧
    (List.foldl recordAppend ([] : List ℕ) l).getLast? = l.getLast? ∧
    ∀ m : List ℕ, (List.foldl recordAppend ([] : List ℕ) m).length ≤ MAX_AUDIT_LOG := by
  have htail : List.foldl recordAppend ([] : List ℕ) l = l.tail := by
    rcases List.eq_nil_or_concat l with rfl | ⟨l0, e, rfl⟩
    · simp at hlen
    · have hl0 : l0.length = MAX_AUDIT_LOG := by
        simp only [List.concat_eq_append, List.length_append, List.length_cons,
          List.length_nil] at hlen
        omega
      rw [List.concat_eq_append, List.foldl_append,
        foldl_recordAppend_of_le l0 [] (by simp [hl0]), List.nil_append,
        List.foldl_cons, List.foldl_nil]
      show recordAppend l0 e = (l0 ++ [e]).tail
      simp only [recordAppend]
      rw [if_pos (by simp [hl0])]
  refine ⟨htail, ?_, ?_, ?_, ?_⟩
  · intro x hx
    rw [htail]
    cases l with
    | nil => simp at hx
    | cons a t =>
      simp only [List.head?_cons, Option.some.injEq] at hx
      subst hx
      exact (List.nodup_cons.mp hnd).1
  · rw [htail, List.length_tail, hlen]
    omega
  · rw [htail]
    rcases List.eq_nil_or_concat l with rfl | ⟨l0, e, rfl⟩
    · simp at hlen
    · cases l0 with
      | nil => simp [MAX_AUDIT_LOG] at hlen
      | cons c l0 =>
        simp only [List.concat_eq_append, List.cons_append, List.tail_cons]
        rw [List.getLast?_concat, ← List.cons_append, List.getLast?_concat]
  · exact fun m => foldl_recordAppend_length m [] (by simp)

/-- C8 witness: the ring-buffer theorem on 1001 distinct entries. -/
theorem C8_audit_ring_buffer_witness :
    (List.range 1001).length = MAX_AUDIT_LOG + 1 ∧ (List.range 1001).Nodup ∧
    (List.foldl recordAppend ([] : List ℕ) (List.range 1001) =
        (List.range 1001).tail ∧
      (∀ x, (List.range 1001).head? = some x →
        x ∉ List.foldl recordAppend ([] : List ℕ) (List.range 1001)) ∧
      (List.foldl recordAppend ([] : List ℕ) (List.range 1001)).length =
        MAX_AUDIT_LOG ∧
      (List.foldl recordAppend ([] : List ℕ) (List.range 1001)).getLast? =
        (List.range 1001).getLast? ∧
      ∀ m : List ℕ,
        (List.foldl recordAppend ([] : List ℕ) m).length ≤ MAX_AUDIT_LOG) :=
  ⟨by simp [List.length_range, MAX_AUDIT_LOG], List.nodup_range 1001,
    C8_audit_ring_buffer (List.range 1001)
      (by simp [List.length_range, MAX_AUDIT_LOG]) (List.nodup_range 1001)⟩

/-- C10: the audit query with `limit = 0` returns every (filtered) stored
entry; with a positive limit it returns the last `min(limit, stored)`
filtered entries in stored order. -/
theorem C10_audit_query (log : List AuditLogEntry) (assetId : Option String)
    (limit : ℤ) (hpos : 0 < limit) :
    getAuditLog log assetId 0 = auditFiltered log assetId ∧
    getAuditLog log assetId limit =
      (auditFiltered log assetId).drop
        ((auditFiltered log assetId).length - limit.toNat) ∧
    (getAuditLog log assetId limit).length =
      min limit.toNat (auditFiltered log assetId).length := by
  have h2 : getAuditLog log assetId limit =
      (auditFiltered log assetId).drop
        ((auditFiltered log assetId).length - limit.toNat) := by
    show pySliceFrom (auditFiltered log assetId) (-limit) = _
    rw [pySliceFrom, if_pos (by omega)]
    congr 1
    omega
  refine ⟨?_, h2, ?_⟩
  · show pySliceFrom (auditFiltered log assetId) (-0) = _
    rw [pySliceFrom, if_neg (by omega)]
    simp
  · rw [h2, List.length_drop]
    omega

/-- C10 witness: the audit query theorem on a concrete three-entry log. -/
theorem C10_audit_query_witness :
    (0 : ℤ) < 2 ∧
    (getAuditLog [⟨0, "a", "PATCH", "p", none, "v", "r"⟩,
        ⟨1, "b", "PATCH", "p", none, "v", "r"⟩,
        ⟨2, "a", "PATCH", "p", none, "v", "r"⟩] (some "a") 0 =
      auditFiltered [⟨0, "a", "PATCH", "p", none, "v", "r"⟩,
        ⟨1, "b", "PATCH", "p", none, "v", "r"⟩,
        ⟨2, "a", "PATCH", "p", none, "v", "r"⟩] (some "a") ∧
    getAuditLog [⟨0, "a", "PATCH", "p", none, "v", "r"⟩,
        ⟨1, "b", "PATCH", "p", none, "v", "r"⟩,
        ⟨2, "a", "PATCH", "p", none, "v", "r"⟩] (some "a") 2 =
      (auditFiltered [⟨0, "a", "PATCH", "p", none, "v", "r"⟩,
        ⟨1, "b", "PATCH", "p", none, "v", "r"⟩,
        ⟨2, "a", "PATCH", "p", none, "v", "r"⟩] (some "a")).drop
        ((auditFiltered [⟨0, "a", "PATCH", "p", none, "v", "r"⟩,
          ⟨1, "b", "PATCH", "p", none, "v", "r"⟩,
          ⟨2, "a", "PATCH", "p", none, "v", "r"⟩] (some "a")).length -
          (2 : ℤ).toNat) ∧
    (getAuditLog [⟨0, "a", "PATCH", "p", none, "v", "r"⟩,
        ⟨1, "b", "PATCH", "p", none, "v", "r"⟩,
        ⟨2, "a", "PATCH", "p", none, "v", "r"⟩] (some "a") 2).length =
      min (2 : ℤ).toNat
        (auditFiltered [⟨0, "a", "PATCH", "p", none, "v", "r"⟩,
          ⟨1, "b", "PATCH", "p", none, "v", "r"⟩,
          ⟨2, "a", "PATCH", "p", none, "v", "r"⟩] (some "a")).length) :=
  ⟨by decide,
    C10_audit_query [⟨0, "a", "PATCH", "p", none, "v", "r"⟩,
      ⟨1, "b", "PATCH", "p", none, "v", "r"⟩,
      ⟨2, "a", "PATCH", "p", none, "v", "r"⟩] (some "a") 2 (by decide)⟩

/-- `leadsWith` on a head mismatch. -/
theorem leadsWith_ne_head (s0 : Char) (st : List Char) (c : Char) (cs : List Char)
    (hc : c ≠ s0) : leadsWith (s0 :: st) (c :: cs) = false := by
  have : (s0 == c) = false := beq_eq_false_iff_ne.mpr (Ne.symm hc)
  simp [leadsWith, this]

/-- Prepending text free of the separator head shifts `findSplit`. -/
theorem findSplit_append_free (s0 : Char) (st : List Char) (a m : List Char)
    (ha : ∀ c ∈ a, c ≠ s0) :
    findSplit (s0 :: st) (a ++ m) =
      (findSplit (s0 :: st) m).map fun pr => (a ++ pr.1, pr.2) := by
  induction a with
  | nil =>
    simp only [List.nil_append]
    cases findSplit (s0 :: st) m with
    | none => rfl
    | some pr => rfl
  | cons c a ih =>
    have hc : c ≠ s0 := ha c (List.mem_cons_self c a)
    show findSplit (s0 :: st) (c :: (a ++ m)) = _
    simp only [findSplit, leadsWith_ne_head s0 st c (a ++ m) hc, Bool.false_eq_true,
      if_false]
    rw [ih fun x hx => ha x (List.mem_cons_of_mem c hx)]
    cases findSplit (s0 :: st) m with
    | none => rfl
    | some pr => rfl

/-- A list free of the separator head contains no occurrence. -/
theorem findSplit_none_free (s0 : Char) (st : List Char) (l : List Char)
    (h : ∀ c ∈ l, c ≠ s0) : findSplit (s0 :: st) l = none := by
  rw [← List.append_nil l, findSplit_append_free s0 st l [] h]
  rfl

/-- Prepending separator-head-free text does not change containment. -/
theorem containsSeq_append_free (s0 : Char) (st : List Char) (a m : List Char)
    (ha : ∀ c ∈ a, c ≠ s0) :
    containsSeq (s0 :: st) (a ++ m) = containsSeq (s0 :: st) m := by
  rw [containsSeq, containsSeq, findSplit_append_free s0 st a m ha]
  cases findSplit (s0 :: st) m with
  | none => rfl
  | some pr => rfl

/-- Prepending separator-head-free text does not change the `[1]` segment. -/
theorem pySplitGet1_append_free (s0 : Char) (st : List Char) (a m : List Char)
    (ha : ∀ c ∈ a, c ≠ s0) :
    pySplitGet1 (s0 :: st) (a ++ m) = pySplitGet1 (s0 :: st) m := by
  rw [pySplitGet1, pySplitGet1, findSplit_append_free s0 st a m ha]
  cases findSplit (s0 :: st) m with
  | none => rfl
  | some pr => rfl

/-- The operator dispatch ignores a leading segment free of `<`, `>`, `=`. -/
theorem condEval_append_free (A M : List Char) (health : ℤ)
    (hA : ∀ c ∈ A, c ≠ '<' ∧ c ≠ '>' ∧ c ≠ '=') :
    condEval (A ++ M) health = condEval M health := by
  have h1 : ∀ c ∈ A, c ≠ '<' := fun c hc => (hA c hc).1
  have h2 : ∀ c ∈ A, c ≠ '>' := fun c hc => (hA c hc).2.1
  have h3 : ∀ c ∈ A, c ≠ '=' := fun c hc => (hA c hc).2.2
  simp only [condEval,
    containsSeq_append_free '<' ['='] A M h1,
    containsSeq_append_free '>' ['='] A M h2,
    containsSeq_append_free '<' [] A M h1,
    containsSeq_append_free '>' [] A M h2,
    containsSeq_append_free '=' ['='] A M h3,
    pySplitGet1_append_free '<' ['='] A M h1,
    pySplitGet1_append_free '>' ['='] A M h2,
    pySplitGet1_append_free '<' [] A M h1,
    pySplitGet1_append_free '>' [] A M h2,
    pySplitGet1_append_free '=' ['='] A M h3]

/-- A condition free of `<`, `>`, `=` falls through to the logged
non-matching result. -/
theorem condEval_opFree (c : List Char) (health : ℤ)
    (hc : ∀ x ∈ c, x ≠ '<' ∧ x ≠ '>' ∧ x ≠ '=') :
    condEval c health = some false := by
  simp only [condEval, containsSeq,
    findSplit_none_free '<' ['='] c (fun x hx => (hc x hx).1),
    findSplit_none_free '>' ['='] c (fun x hx => (hc x hx).2.1),
    findSplit_none_free '<' [] c (fun x hx => (hc x hx).1),
    findSplit_none_free '>' [] c (fun x hx => (hc x hx).2.1),
    findSplit_none_free '=' ['='] c (fun x hx => (hc x hx).2.2),
    Option.isSome_none, Bool.false_eq_true, if_false]

/-- `dropWhile` passes over an appended tail when a head survives. -/
theorem dropWhile_append_of_exists {α : Type} (p : α → Bool) (l₁ l₂ : List α)
    (h : ∃ c ∈ l₁, ¬ p c) :
    (l₁ ++ l₂).dropWhile p = l₁.dropWhile p ++ l₂ := by
  induction l₁ with
  | nil => obtain ⟨c, hc, -⟩ := h; simp at hc
  | cons a l₁ ih =>
    by_cases hp : p a
    · obtain ⟨c, hc, hpc⟩ := h
      rcases List.mem_cons.mp hc with rfl | hc'
      · exact absurd hp hpc
      · simp only [List.cons_append, List.dropWhile_cons, hp, if_true]
        exact ih ⟨c, hc', hpc⟩
    · simp [List.dropWhile_cons, hp]

/-- `dropWhile` absorbs a fully matching prefix. -/
theorem dropWhile_append_of_all {α : Type} (p : α → Bool) (l₁ l₂ : List α)
    (h : ∀ c ∈ l₁, p c) :
    (l₁ ++ l₂).dropWhile p = l₂.dropWhile p := by
  induction l₁ with
  | nil => rfl
  | cons a l₁ ih =>
    simp only [List.cons_append, List.dropWhile_cons, h a (List.mem_cons_self a l₁),
      if_true]
    exact ih fun c hc => h c (List.mem_cons_of_mem a hc)

/-- Left strip distributes over an append when the head has content. -/
theorem stripLeft_append (pre rest : List Char)
    (h : ∃ c ∈ pre, ¬ c.isWhitespace) :
    stripLeft (pre ++ rest) = stripLeft pre ++ rest :=
  dropWhile_append_of_exists Char.isWhitespace pre rest h

/-- Right strip stays inside the tail when the tail has content. -/
theorem stripRight_append (a m : List Char) (h : ∃ c ∈ m, ¬ c.isWhitespace) :
    stripRight (a ++ m) = a ++ stripRight m := by
  obtain ⟨c, hc, hpc⟩ := h
  rw [stripRight, List.reverse_append,
    dropWhile_append_of_exists Char.isWhitespace m.reverse a.reverse
      ⟨c, List.mem_reverse.mpr hc, hpc⟩,
    List.reverse_append, List.reverse_reverse]
  rfl

/-- Right strip drops an all-whitespace tail. -/
theorem stripRight_append_allws (a m : List Char)
    (h : ∀ c ∈ m, c.isWhitespace) :
    stripRight (a ++ m) = stripRight a := by
  rw [stripRight, List.reverse_append,
    dropWhile_append_of_all Char.isWhitespace m.reverse a.reverse
      fun c hc => h c (List.mem_reverse.mp hc)]
  rfl

/-- `Char.ofNat` on a small codepoint. -/
theorem toNat_ofNat_lt (n : ℕ) (h : n < 55296) : (Char.ofNat n).toNat = n := by
  rw [Char.ofNat, dif_pos (Or.inl h : n.isValidChar)]
  rfl

/-- `Char.toLower` cannot produce a character below code 65 it did not
start from. -/
theorem toLower_ne (c d : Char) (hd : d.toNat < 65) (h : c ≠ d) :
    c.toLower ≠ d := by
  rw [Char.toLower]
  split
  · next hu =>
    intro he
    have hn := congrArg Char.toNat he
    rw [toNat_ofNat_lt (c.toNat + 32) (by omega)] at hn
    omega
  · next => exact h

/-- Case folding preserves freedom from the operator characters. -/
theorem pyLower_opFree (s : List Char)
    (h : ∀ c ∈ s, c ≠ '<' ∧ c ≠ '>' ∧ c ≠ '=') :
    ∀ x ∈ pyLower s, x ≠ '<' ∧ x ≠ '>' ∧ x ≠ '=' := by
  intro x hx
  obtain ⟨c, hc, rfl⟩ := List.mem_map.mp hx
  obtain ⟨e1, e2, e3⟩ := h c hc
  exact ⟨toLower_ne c '<' (by decide) e1, toLower_ne c '>' (by decide) e2,
    toLower_ne c '=' (by decide) e3⟩

/-- Members of the left strip are members of the original list. -/
theorem mem_stripLeft (x : Char) (s : List Char) (h : x ∈ stripLeft s) : x ∈ s :=
  List.dropWhile_subset Char.isWhitespace h

/-- Members of the right strip are members of the original list. -/
theorem mem_stripRight (x : Char) (s : List Char) (h : x ∈ stripRight s) : x ∈ s := by
  rw [stripRight, List.mem_reverse] at h
  exact List.mem_reverse.mp (List.dropWhile_subset Char.isWhitespace h)

/-- The condition parser never inspects the text left of the first operator:
replacing an operator-free left segment by `"health "` cannot change the
result. -/
theorem checkCondition_ignores_left (pre rest : List Char) (health : ℤ)
    (hop : ∀ c ∈ pre, c ≠ '<' ∧ c ≠ '>' ∧ c ≠ '=')
    (hnw : ∃ c ∈ pre, ¬ c.isWhitespace) :
    checkCondition (pre ++ rest) health =
      checkCondition ("health ".toList ++ rest) health := by
  have hHealthNw : ∃ c ∈ "health ".toList, ¬ c.isWhitespace :=
    ⟨'h', by decide, by decide⟩
  by_cases hr : ∃ c ∈ rest, ¬ c.isWhitespace
  · rw [checkCondition, checkCondition, pyStrip, pyStrip,
      stripLeft_append pre rest hnw, stripLeft_append "health ".toList rest hHealthNw,
      stripRight_append (stripLeft pre) rest hr,
      stripRight_append (stripLeft "health ".toList) rest hr,
      pyLower, pyLower, List.map_append, List.map_append]
    have hA1 : ∀ x ∈ (stripLeft pre).map Char.toLower,
        x ≠ '<' ∧ x ≠ '>' ∧ x ≠ '=' :=
      pyLower_opFree (stripLeft pre) fun c hc => hop c (mem_stripLeft c pre hc)
    have hA2 : ∀ x ∈ (stripLeft "health ".toList).map Char.toLower,
        x ≠ '<' ∧ x ≠ '>' ∧ x ≠ '=' := by decide
    calc condEval ((stripLeft pre).map Char.toLower ++
          (stripRight rest).map Char.toLower) health
        = condEval ((stripRight rest).map Char.toLower) health :=
          condEval_append_free _ _ health hA1
      _ = condEval ((stripLeft "health ".toList).map Char.toLower ++
            (stripRight rest).map Char.toLower) health :=
          (condEval_append_free _ _ health hA2).symm
  · have hr' : ∀ c ∈ rest, c.isWhitespace := by
      intro c hc
      by_contra hpc
      exact hr ⟨c, hc, hpc⟩
    rw [checkCondition, checkCondition, pyStrip, pyStrip,
      stripLeft_append pre rest hnw, stripLeft_append "health ".toList rest hHealthNw,
      stripRight_append_allws (stripLeft pre) rest hr',
      stripRight_append_allws (stripLeft "health ".toList) rest hr']
    have hA1 : ∀ x ∈ pyLower (stripRight (stripLeft pre)),
        x ≠ '<' ∧ x ≠ '>' ∧ x ≠ '=' :=
      pyLower_opFree _ fun c hc =>
        hop c (mem_stripLeft c pre (mem_stripRight c (stripLeft pre) hc))
    rw [condEval_opFree _ health hA1, condEval_opFree _ health (by decide)]

/-- C9 (amended): for any condition whose text before the operator contains
none of `<`, `>`, `=` (and at least one non-whitespace character), the
parser evaluates it exactly as the same condition with `"health "` on the
left: the variable name is never checked.  In particular
`"temperature < 90"` evaluates exactly as `"health < 90"`. -/
theorem C9_condition_left_free (pre rest : List Char) (health : ℤ)
    (hop : ∀ c ∈ pre, c ≠ '<' ∧ c ≠ '>' ∧ c ≠ '=')
    (hnw : ∃ c ∈ pre, ¬ c.isWhitespace) :
    checkCondition (pre ++ rest) health =
      checkCondition ("health ".toList ++ rest) health ∧
    (∀ h : ℤ, checkCondition "temperature < 90".toList h = some (decide (h < 90))) ∧
    (∀ h : ℤ, checkCondition "health < 90".toList h = some (decide (h < 90))) :=
  ⟨checkCondition_ignores_left pre rest health hop hnw, fun _ => rfl, fun _ => rfl⟩

/-- C9 witness: the left-free theorem at `"temperature " ++ "< 90"`. -/
theorem C9_condition_left_free_witness :
    (∀ c ∈ "temperature ".toList, c ≠ '<' ∧ c ≠ '>' ∧ c ≠ '=') ∧
    (∃ c ∈ "temperature ".toList, ¬ c.isWhitespace) ∧
    (checkCondition ("temperature ".toList ++ "< 90".toList) 50 =
        checkCondition ("health ".toList ++ "< 90".toList) 50 ∧
      (∀ h : ℤ,
        checkCondition "temperature < 90".toList h = some (decide (h < 90))) ∧
      (∀ h : ℤ,
        checkCondition "health < 90".toList h = some (decide (h < 90)))) :=
  ⟨by decide, by decide,
    C9_condition_left_free "temperature ".toList "< 90".toList 50
      (by decide) (by decide)⟩

/-- C9 counterexample: `"a>=b<90"` contains `<` followed by the integer 90,
yet the parser picks `>=` first and raises on `int("b<90")` instead of
comparing the health index, unlike `"health < 90"`. -/
theorem C9_condition_claim_counterexample :
    checkCondition "a>=b<90".toList 50 = none ∧
    checkCondition "health < 90".toList 50 = some true ∧
    (none : Option Bool) ≠ some true := by
  refine ⟨rfl, rfl, by simp⟩

end AdaptivX
